import Mathlib

/-!
# Shopping cart and order session (`Class_Diagram.cpp`)

A shallow embedding of the cart and order logic of `Class_Diagram.cpp`.

Modelling conventions:

* `double` prices and totals are exact rationals (`ℚ`); rounding is not modelled.
* `int quantity` is a 32-bit integer.  Quantities are values of `Int`, and the two
  updates `quantity += qty` and `quantity -= qty` wrap to the two's-complement
  range, as the compiled program does (`2147483647 + 1` leaves `-2147483648`).
  The conversion of a quantity to `double` in `productPrice * qty` is exact.
* `nextOrderIndex` moves by one per order kept in `ordersRecord`; it is an exact
  `Int`, since a history of `2147483647` orders is out of reach for the program.
* `std::vector` is `List`; `std::string` is `String` with exact equality.
* Console output is not part of the state and is omitted.
-/

namespace ClassDiagram

/-! ## Data model -/

/-- Product of the catalog: `class Product`. -/
structure Product where
  productCode : String
  productName : String
  productPrice : ℚ
  deriving DecidableEq

/-- Cart line, a product with its quantity: `class OrderItem`. -/
structure OrderItem where
  item : Product
  quantity : Int
  deriving DecidableEq

/-- Collection of order items with a running total: `class ShoppingCart`. -/
structure ShoppingCart where
  cartID : Int
  itemsList : List OrderItem
  totalCost : ℚ
  deriving DecidableEq

/-- Finalized order holding a copy of a cart: `class Order`. -/
structure Order where
  orderNumber : Int
  orderCart : ShoppingCart
  deriving DecidableEq

/-- The value is in the range of the 32-bit `int`. -/
def isInt (x : Int) : Prop := -2147483648 ≤ x ∧ x ≤ 2147483647

/-- Result of 32-bit `int` arithmetic: the exact result reduced to the
two's-complement range. -/
def wrapInt (x : Int) : Int := (x + 2147483648) % 4294967296 - 2147483648

namespace ShoppingCart

/-- Constructor `ShoppingCart(int id)`: no lines and `totalCost(0.0)`. -/
def init (id : Int) : ShoppingCart :=
  { cartID := id, itemsList := [], totalCost := 0 }

/-- The range-for loop of `addProduct`: the first entry whose code equals the
code of `prod` gets `quantity += qty` and the loop breaks.  The second
component is the flag `found`. -/
def addProductLoop (prod : Product) (qty : Int) : List OrderItem → List OrderItem × Bool
  | [] => ([], false)
  | entry :: rest =>
    if entry.item.productCode = prod.productCode then
      ({ entry with quantity := wrapInt (entry.quantity + qty) } :: rest, true)
    else
      (entry :: (addProductLoop prod qty rest).1, (addProductLoop prod qty rest).2)

/-- Method `ShoppingCart::addProduct`. -/
def addProduct (c : ShoppingCart) (prod : Product) (qty : Int) : ShoppingCart :=
  let r := addProductLoop prod qty c.itemsList
  { cartID := c.cartID
    itemsList := if r.2 then r.1 else r.1 ++ [OrderItem.mk prod qty]
    totalCost := c.totalCost + prod.productPrice * qty }

/-- The indexed loop of `removeProduct`, entered at index `i`. -/
def removeProductLoop (code : String) (qty : Int) (c : ShoppingCart) (i : Nat) : ShoppingCart :=
  if h : i < c.itemsList.length then
    if (c.itemsList.get ⟨i, h⟩).item.productCode = code then
      if qty ≥ (c.itemsList.get ⟨i, h⟩).quantity then
        { cartID := c.cartID
          itemsList := c.itemsList.eraseIdx i
          totalCost := c.totalCost
            - (c.itemsList.get ⟨i, h⟩).item.productPrice * (c.itemsList.get ⟨i, h⟩).quantity }
      else
        { cartID := c.cartID
          itemsList := c.itemsList.set i
            { c.itemsList.get ⟨i, h⟩ with
              quantity := wrapInt ((c.itemsList.get ⟨i, h⟩).quantity - qty) }
          totalCost := c.totalCost - (c.itemsList.get ⟨i, h⟩).item.productPrice * qty }
    else
      removeProductLoop code qty c (i + 1)
  else
    c
termination_by c.itemsList.length - i

/-- Method `ShoppingCart::removeProduct`. -/
def removeProduct (c : ShoppingCart) (code : String) (qty : Int) : ShoppingCart :=
  removeProductLoop code qty c 0

/-- Method `ShoppingCart::isEmpty`. -/
def isEmpty (c : ShoppingCart) : Bool := c.itemsList.isEmpty

/-- Method `ShoppingCart::getTotal`. -/
def getTotal (c : ShoppingCart) : ℚ := c.totalCost

end ShoppingCart

/-! ## The session of `main` -/

/-- The catalog `products` of `main`. -/
def products : List Product :=
  [ ⟨"BIG", "Bigas", 40.50⟩,
    ⟨"SRD", "Sardinas", 15.75⟩,
    ⟨"PNDS", "Pandesal", 30.00⟩,
    ⟨"CRND", "Corned Beef", 80.00⟩,
    ⟨"KAPE", "Kape", 120.00⟩,
    ⟨"ITLG", "Itlog", 3.50⟩ ]

/-- The mutable locals of `main`. -/
structure Session where
  nextOrderIndex : Int
  ordersRecord : List Order
  cart : ShoppingCart
  continueApp : Bool
  deriving DecidableEq

/-- State of `main` on entry to the menu loop. -/
def Session.initial : Session :=
  { nextOrderIndex := 1, ordersRecord := [], cart := ShoppingCart.init 1, continueApp := true }

/-- One pass of the menu loop as seen by the state: the selected option with the
inputs read for it.  Quantities are the values returned by `obtainValidInteger`. -/
inductive MenuAction where
  | viewProducts
  | addToCart (inputID : String) (qty : Int)
  | removeFromCart (removeID : String) (removeQty : Int)
  | viewCart
  | placeOrder
  | orderHistory
  | exit
  deriving DecidableEq

/-- The catalog search of option 2: the first product whose code is `inputID`. -/
def findProduct (inputID : String) : List Product → Option Product
  | [] => none
  | prod :: rest => if prod.productCode = inputID then some prod else findProduct inputID rest

/-- Body of the `while (continueApp)` loop of `main` for one selected option. -/
def menuStep (s : Session) : MenuAction → Session
  | .viewProducts => s
  | .addToCart inputID qty =>
    match findProduct inputID products with
    | some prod => { s with cart := s.cart.addProduct prod qty }
    | none => s
  | .removeFromCart removeID removeQty =>
    if s.cart.isEmpty then s
    else { s with cart := s.cart.removeProduct removeID removeQty }
  | .viewCart => s
  | .placeOrder =>
    if s.cart.isEmpty then s
    else
      { s with
        ordersRecord := s.ordersRecord ++ [Order.mk s.nextOrderIndex s.cart]
        nextOrderIndex := s.nextOrderIndex + 1
        cart := ShoppingCart.init 1 }
  | .orderHistory => s
  | .exit => { s with continueApp := false }

/-- The menu loop on a finite list of selections: the body runs while
`continueApp` holds. -/
def runMenu : Session → List MenuAction → Session
  | s, [] => s
  | s, a :: rest => if s.continueApp then runMenu (menuStep s a) rest else s

/-! ## Call sequences on a cart -/

/-- A call of one of the two mutating methods of `ShoppingCart`. -/
inductive CartCall where
  | add (prod : Product) (qty : Int)
  | remove (code : String) (qty : Int)
  deriving DecidableEq

/-- Effect of one call. -/
def CartCall.apply (c : ShoppingCart) : CartCall → ShoppingCart
  | .add prod qty => c.addProduct prod qty
  | .remove code qty => c.removeProduct code qty

/-- Effect of a finite sequence of calls, first call first. -/
def applyCalls (c : ShoppingCart) (calls : List CartCall) : ShoppingCart :=
  calls.foldl CartCall.apply c

/-- Sum over the lines of `item.productPrice * quantity`. -/
def linesTotal (items : List OrderItem) : ℚ :=
  (items.map fun e => e.item.productPrice * (e.quantity : ℚ)).sum

/-- First line of the list with the code, the line both loops stop at. -/
def firstLine (code : String) : List OrderItem → Option OrderItem
  | [] => none
  | e :: rest => if e.item.productCode = code then some e else firstLine code rest

/-- The quantity update of the call on cart `c`, if it makes one, stays in the
`int` range: `quantity + qty` for `addProduct` on an existing line, and
`quantity - qty` for `removeProduct` in its decrement branch. -/
def CartCall.exact (c : ShoppingCart) : CartCall → Prop
  | .add prod qty =>
    ∀ e, firstLine prod.productCode c.itemsList = some e → isInt (e.quantity + qty)
  | .remove code qty =>
    ∀ e, firstLine code c.itemsList = some e → qty < e.quantity → isInt (e.quantity - qty)

/-- No quantity update of the call sequence, run from cart `c`, leaves the `int`
range. -/
def callsExact (c : ShoppingCart) : List CartCall → Prop
  | [] => True
  | call :: rest => call.exact c ∧ callsExact (call.apply c) rest

/-- Quantity argument of a call. -/
def CartCall.qty : CartCall → Int
  | .add _ qty => qty
  | .remove _ qty => qty

/-- Largest `orderNumber` of a history, `none` for the empty history. -/
def maxOrderNumber : List Order → Option Int
  | [] => none
  | o :: rest =>
    match maxOrderNumber rest with
    | none => some o.orderNumber
    | some m => some (max o.orderNumber m)

/-- The catalog entry `Product("BIG", "Bigas", 40.50)`. -/
def bigas : Product := ⟨"BIG", "Bigas", 40.50⟩

/-- The catalog entry `Product("SRD", "Sardinas", 15.75)`. -/
def sardinas : Product := ⟨"SRD", "Sardinas", 15.75⟩

/-- The session can be reached from the initial state of `main` by finitely many
menu selections. -/
def Session.Reachable (s : Session) : Prop :=
  ∃ actions : List MenuAction, runMenu Session.initial actions = s

/-- Invariant of the menu loop: the cart id is 1, the next order number is 1 on an
empty history and otherwise one more than the largest number in the history. -/
def SessionInv (s : Session) : Prop :=
  s.cart.cartID = 1 ∧ (s.ordersRecord = [] → s.nextOrderIndex = 1) ∧
    ∀ m, maxOrderNumber s.ordersRecord = some m → s.nextOrderIndex = m + 1

namespace ShoppingCart

/-! ## The two loops on a list split at the first matching line -/

theorem getElem_append_cons_length {α : Type} (done rest : List α) (x : α)
    (h : done.length < (done ++ x :: rest).length) :
    (done ++ x :: rest)[done.length] = x := by
  induction done with
  | nil => rfl
  | cons d done ih => simpa using ih (by simp)

theorem eraseIdx_append_cons_length {α : Type} (done rest : List α) (x : α) :
    (done ++ x :: rest).eraseIdx done.length = done ++ rest := by
  induction done with
  | nil => rfl
  | cons d done ih => simpa using ih

/-- In the `int` range 32-bit arithmetic is exact. -/
theorem wrapInt_of_isInt (x : Int) (h : isInt x) : wrapInt x = x := by
  unfold isInt at h
  unfold wrapInt
  omega

theorem firstLine_noMatch (code : String) (l : List OrderItem)
    (h : ∀ x ∈ l, x.item.productCode ≠ code) : firstLine code l = none := by
  induction l with
  | nil => rfl
  | cons a l ih =>
    have ha : a.item.productCode ≠ code := h a (by simp)
    simp [firstLine, ha, ih (fun x hx => h x (by simp [hx]))]

theorem firstLine_firstMatch (code : String) (e : OrderItem) (suf : List OrderItem)
    (he : e.item.productCode = code) (pre : List OrderItem)
    (hpre : ∀ x ∈ pre, x.item.productCode ≠ code) :
    firstLine code (pre ++ e :: suf) = some e := by
  induction pre with
  | nil => simp [firstLine, he]
  | cons a pre ih =>
    have ha : a.item.productCode ≠ code := hpre a (by simp)
    simp [firstLine, ha, ih (fun x hx => hpre x (by simp [hx]))]

/-- Every list either has no line with the code, or splits at the first such line. -/
theorem firstMatch_cases (code : String) (l : List OrderItem) :
    (∀ x ∈ l, x.item.productCode ≠ code) ∨
      ∃ pre e suf, l = pre ++ e :: suf ∧ (∀ x ∈ pre, x.item.productCode ≠ code) ∧
        e.item.productCode = code := by
  induction l with
  | nil => left; simp
  | cons a l ih =>
    by_cases ha : a.item.productCode = code
    · exact Or.inr ⟨[], a, l, rfl, by simp, ha⟩
    · rcases ih with h | ⟨pre, e, suf, hl, hpre, he⟩
      · left
        intro x hx
        rcases List.mem_cons.mp hx with rfl | hx
        · exact ha
        · exact h x hx
      · refine Or.inr ⟨a :: pre, e, suf, by simp [hl], ?_, he⟩
        intro x hx
        rcases List.mem_cons.mp hx with rfl | hx
        · exact ha
        · exact hpre x hx

theorem removeProductLoop_noMatch (code : String) (qty : Int) (id : Int) (t : ℚ)
    (rest : List OrderItem) (hrest : ∀ x ∈ rest, x.item.productCode ≠ code) :
    ∀ done : List OrderItem,
      removeProductLoop code qty ⟨id, done ++ rest, t⟩ done.length = ⟨id, done ++ rest, t⟩ := by
  induction rest with
  | nil =>
    intro done
    rw [removeProductLoop]
    simp
  | cons x rest ih =>
    intro done
    rw [removeProductLoop]
    have hx : x.item.productCode ≠ code := hrest x (by simp)
    have := ih (fun y hy => hrest y (by simp [hy])) (done ++ [x])
    simp at this
    simp [hx, this, getElem_append_cons_length]

theorem removeProductLoop_firstMatch (code : String) (qty : Int) (id : Int) (t : ℚ)
    (e : OrderItem) (suf : List OrderItem) (he : e.item.productCode = code)
    (pre : List OrderItem) (hpre : ∀ x ∈ pre, x.item.productCode ≠ code) :
    ∀ done : List OrderItem,
      removeProductLoop code qty ⟨id, done ++ pre ++ e :: suf, t⟩ done.length =
        if qty ≥ e.quantity then
          ⟨id, done ++ pre ++ suf, t - e.item.productPrice * e.quantity⟩
        else
          ⟨id, done ++ pre ++ { e with quantity := wrapInt (e.quantity - qty) } :: suf,
            t - e.item.productPrice * qty⟩ := by
  induction pre with
  | nil =>
    intro done
    rw [removeProductLoop]
    simp [he, getElem_append_cons_length, eraseIdx_append_cons_length]
  | cons x pre ih =>
    intro done
    rw [removeProductLoop]
    have hx : x.item.productCode ≠ code := hpre x (by simp)
    have := ih (fun y hy => hpre y (by simp [hy])) (done ++ [x])
    simp at this
    simp [hx, this, getElem_append_cons_length]

/-- Without a matching line `removeProduct` returns the cart as it is. -/
theorem removeProduct_noMatch (c : ShoppingCart) (code : String) (qty : Int)
    (h : ∀ x ∈ c.itemsList, x.item.productCode ≠ code) :
    c.removeProduct code qty = c := by
  cases c with
  | mk id items t => simpa [removeProduct] using removeProductLoop_noMatch code qty id t items h []

/-- With first matching line `e`, `removeProduct` erases it or lowers its quantity. -/
theorem removeProduct_firstMatch (c : ShoppingCart) (code : String) (qty : Int)
    (pre suf : List OrderItem) (e : OrderItem) (hl : c.itemsList = pre ++ e :: suf)
    (hpre : ∀ x ∈ pre, x.item.productCode ≠ code) (he : e.item.productCode = code) :
    c.removeProduct code qty =
      if qty ≥ e.quantity then
        ⟨c.cartID, pre ++ suf, c.totalCost - e.item.productPrice * e.quantity⟩
      else
        ⟨c.cartID, pre ++ { e with quantity := wrapInt (e.quantity - qty) } :: suf,
          c.totalCost - e.item.productPrice * qty⟩ := by
  cases c with
  | mk id items t =>
    simp only at hl
    subst hl
    simpa [removeProduct] using removeProductLoop_firstMatch code qty id t e suf he pre hpre []

theorem addProductLoop_noMatch (prod : Product) (qty : Int) (l : List OrderItem)
    (h : ∀ x ∈ l, x.item.productCode ≠ prod.productCode) :
    addProductLoop prod qty l = (l, false) := by
  induction l with
  | nil => rfl
  | cons a l ih =>
    have ha : a.item.productCode ≠ prod.productCode := h a (by simp)
    have hl := ih (fun x hx => h x (by simp [hx]))
    simp [addProductLoop, ha, hl]

theorem addProductLoop_firstMatch (prod : Product) (qty : Int) (e : OrderItem)
    (suf : List OrderItem) (he : e.item.productCode = prod.productCode) (pre : List OrderItem)
    (hpre : ∀ x ∈ pre, x.item.productCode ≠ prod.productCode) :
    addProductLoop prod qty (pre ++ e :: suf) =
      (pre ++ { e with quantity := wrapInt (e.quantity + qty) } :: suf, true) := by
  induction pre with
  | nil => simp [addProductLoop, he]
  | cons a pre ih =>
    have ha : a.item.productCode ≠ prod.productCode := hpre a (by simp)
    have hl := ih (fun x hx => hpre x (by simp [hx]))
    simp [addProductLoop, ha, hl]

/-- Without a line for the code `addProduct` appends a new line. -/
theorem addProduct_noMatch (c : ShoppingCart) (prod : Product) (qty : Int)
    (h : ∀ x ∈ c.itemsList, x.item.productCode ≠ prod.productCode) :
    c.addProduct prod qty =
      ⟨c.cartID, c.itemsList ++ [⟨prod, qty⟩], c.totalCost + prod.productPrice * qty⟩ := by
  simp [addProduct, addProductLoop_noMatch prod qty c.itemsList h]

/-- With first matching line `e`, `addProduct` raises the quantity of `e`. -/
theorem addProduct_firstMatch (c : ShoppingCart) (prod : Product) (qty : Int)
    (pre suf : List OrderItem) (e : OrderItem) (hl : c.itemsList = pre ++ e :: suf)
    (hpre : ∀ x ∈ pre, x.item.productCode ≠ prod.productCode)
    (he : e.item.productCode = prod.productCode) :
    c.addProduct prod qty =
      ⟨c.cartID, pre ++ { e with quantity := wrapInt (e.quantity + qty) } :: suf,
        c.totalCost + prod.productPrice * qty⟩ := by
  simp [addProduct, hl, addProductLoop_firstMatch prod qty e suf he pre hpre]

end ShoppingCart

open ShoppingCart

/-! ## Single calls -/

/-- C2, as stated, fails: from the empty cart, `addProduct(BIG, 2147483647)` followed
by `addProduct(BIG, 1)` leaves the single line with quantity `-2147483648`, not
`2147483647 + 1`. -/
theorem addProduct_twice_overflow :
    (∀ e ∈ (ShoppingCart.init 1).itemsList, e.item.productCode ≠ bigas.productCode) ∧
      (((ShoppingCart.init 1).addProduct bigas 2147483647).addProduct bigas 1).itemsList =
        [⟨bigas, -2147483648⟩] ∧
      (((ShoppingCart.init 1).addProduct bigas 2147483647).addProduct bigas 1).itemsList ≠
        (ShoppingCart.init 1).itemsList ++ [⟨bigas, 2147483647 + 1⟩] := by
  have h : (((ShoppingCart.init 1).addProduct bigas 2147483647).addProduct bigas 1).itemsList =
      [⟨bigas, -2147483648⟩] := by
    simp [addProduct, addProductLoop, ShoppingCart.init, wrapInt]
  refine ⟨by simp [ShoppingCart.init], h, ?_⟩
  rw [h]
  simp [ShoppingCart.init]

/-- C2, amended: on a cart with no line for the code of `p`, and for quantities
whose sum `q1 + q2` is in the `int` range, `addProduct p q1` followed by
`addProduct p q2` leaves the earlier lines as they are, in order, and puts exactly
one new line `(p, q1 + q2)` at the end; the total grows by the price of both
additions and the cart id stays. -/
theorem addProduct_twice_merges (c : ShoppingCart) (p : Product) (q1 q2 : Int)
    (hfresh : ∀ e ∈ c.itemsList, e.item.productCode ≠ p.productCode)
    (hsum : isInt (q1 + q2)) :
    ((c.addProduct p q1).addProduct p q2).itemsList = c.itemsList ++ [⟨p, q1 + q2⟩] ∧
      ((c.addProduct p q1).addProduct p q2).getTotal =
        c.getTotal + p.productPrice * q1 + p.productPrice * q2 ∧
      ((c.addProduct p q1).addProduct p q2).cartID = c.cartID := by
  rw [addProduct_noMatch c p q1 hfresh]
  rw [addProduct_firstMatch _ p q2 c.itemsList [] ⟨p, q1⟩ rfl hfresh rfl]
  simp [getTotal, wrapInt_of_isInt _ hsum]

/-- C2, the example of the specification: from the empty cart, adding BIG (40.50)
twice with quantities 2 and 3 gives the single line of quantity 5 and total 202.50. -/
theorem addProduct_twice_merges_witness :
    (∀ e ∈ (ShoppingCart.init 1).itemsList, e.item.productCode ≠ bigas.productCode) ∧
      isInt (2 + 3) ∧
      (((ShoppingCart.init 1).addProduct bigas 2).addProduct bigas 3).itemsList = [⟨bigas, 5⟩] ∧
      (((ShoppingCart.init 1).addProduct bigas 2).addProduct bigas 3).getTotal = 202.50 ∧
      (((ShoppingCart.init 1).addProduct bigas 2).addProduct bigas 3).cartID = 1 := by
  have hfresh : ∀ e ∈ (ShoppingCart.init 1).itemsList, e.item.productCode ≠ bigas.productCode := by
    simp [ShoppingCart.init]
  have hsum : isInt (2 + 3) := by
    unfold isInt
    omega
  obtain ⟨h1, h2, h3⟩ := addProduct_twice_merges (ShoppingCart.init 1) bigas 2 3 hfresh hsum
  refine ⟨hfresh, hsum, ?_, ?_, ?_⟩
  · rw [h1]; simp [ShoppingCart.init]
  · rw [h2]; simp [ShoppingCart.init, getTotal, bigas]; norm_num
  · rw [h3]; rfl

/-- C4: when no line of the cart has the code, `removeProduct` returns the cart
unchanged: same `cartID`, same lines with the same quantities in the same order,
same `totalCost`. -/
theorem removeProduct_absent_code (c : ShoppingCart) (code : String) (qty : Int)
    (habsent : ∀ e ∈ c.itemsList, e.item.productCode ≠ code) :
    c.removeProduct code qty = c :=
  removeProduct_noMatch c code qty habsent

/-- C4 on a cart with lines BIG and SRD and the absent code "big": the match is
case-sensitive and the cart is returned unchanged. -/
theorem removeProduct_absent_code_witness :
    (∀ e ∈ (⟨1, [⟨bigas, 5⟩, ⟨sardinas, 1⟩], 218.25⟩ : ShoppingCart).itemsList,
        e.item.productCode ≠ "big") ∧
      (⟨1, [⟨bigas, 5⟩, ⟨sardinas, 1⟩], 218.25⟩ : ShoppingCart).removeProduct "big" 3 =
        ⟨1, [⟨bigas, 5⟩, ⟨sardinas, 1⟩], 218.25⟩ :=
  ⟨by simp [bigas, sardinas],
    removeProduct_absent_code ⟨1, [⟨bigas, 5⟩, ⟨sardinas, 1⟩], 218.25⟩ "big" 3
      (by simp [bigas, sardinas])⟩

/-! ## Invariants of call sequences -/

@[simp] theorem linesTotal_nil : linesTotal [] = 0 := rfl

@[simp] theorem linesTotal_cons (e : OrderItem) (l : List OrderItem) :
    linesTotal (e :: l) = e.item.productPrice * (e.quantity : ℚ) + linesTotal l := by
  simp [linesTotal]

@[simp] theorem linesTotal_append (l1 l2 : List OrderItem) :
    linesTotal (l1 ++ l2) = linesTotal l1 + linesTotal l2 := by
  simp [linesTotal]

/-- A run without overflow has no overflow in its initial parts. -/
theorem callsExact_append_left (l1 l2 : List CartCall) :
    ∀ c : ShoppingCart, callsExact c (l1 ++ l2) → callsExact c l1 := by
  induction l1 with
  | nil => intro c _; trivial
  | cons call l1 ih =>
    intro c h
    exact ⟨h.1, ih _ h.2⟩

/-- In the catalog of `main` the product code determines the price. -/
theorem products_code_determines_price :
    ∀ p1 ∈ products, ∀ p2 ∈ products,
      p1.productCode = p2.productCode → p1.productPrice = p2.productPrice := by
  intro p1 h1 p2 h2
  simp only [products, List.mem_cons, List.mem_singleton, List.not_mem_nil, or_false] at h1 h2
  rcases h1 with rfl | rfl | rfl | rfl | rfl | rfl <;>
    rcases h2 with rfl | rfl | rfl | rfl | rfl | rfl <;> simp

/-- Invariant behind the running total: every line holds a catalog product and the
stored total is the sum over the lines. -/
theorem addProduct_total (catalog : List Product)
    (hcat : ∀ p1 ∈ catalog, ∀ p2 ∈ catalog,
      p1.productCode = p2.productCode → p1.productPrice = p2.productPrice)
    (c : ShoppingCart) (p : Product) (q : Int) (hp : p ∈ catalog)
    (hex : (CartCall.add p q).exact c)
    (hitems : ∀ e ∈ c.itemsList, e.item ∈ catalog)
    (htot : c.totalCost = linesTotal c.itemsList) :
    (∀ e ∈ (c.addProduct p q).itemsList, e.item ∈ catalog) ∧
      (c.addProduct p q).totalCost = linesTotal (c.addProduct p q).itemsList := by
  rcases firstMatch_cases p.productCode c.itemsList with h | ⟨pre, e, suf, hl, hpre, he⟩
  · rw [addProduct_noMatch c p q h]
    refine ⟨?_, ?_⟩
    · intro x hx
      simp only [List.mem_append, List.mem_singleton] at hx
      rcases hx with hx | rfl
      · exact hitems x hx
      · exact hp
    · simp [htot]
  · rw [addProduct_firstMatch c p q pre suf e hl hpre he]
    have hmem : e ∈ c.itemsList := by simp [hl]
    have hprice : e.item.productPrice = p.productPrice := hcat _ (hitems e hmem) _ hp he
    have hwrap : wrapInt (e.quantity + q) = e.quantity + q :=
      wrapInt_of_isInt _ (hex e (by rw [hl]; exact firstLine_firstMatch _ e suf he pre hpre))
    refine ⟨?_, ?_⟩
    · intro x hx
      simp only [List.mem_append, List.mem_cons] at hx
      rcases hx with hx | rfl | hx
      · exact hitems x (by simp [hl, hx])
      · exact hitems e hmem
      · exact hitems x (by simp [hl, hx])
    · simp [htot, hl, hprice, hwrap]
      ring

theorem removeProduct_total (catalog : List Product) (c : ShoppingCart) (code : String)
    (q : Int) (hex : (CartCall.remove code q).exact c)
    (hitems : ∀ e ∈ c.itemsList, e.item ∈ catalog)
    (htot : c.totalCost = linesTotal c.itemsList) :
    (∀ e ∈ (c.removeProduct code q).itemsList, e.item ∈ catalog) ∧
      (c.removeProduct code q).totalCost = linesTotal (c.removeProduct code q).itemsList := by
  rcases firstMatch_cases code c.itemsList with h | ⟨pre, e, suf, hl, hpre, he⟩
  · rw [removeProduct_noMatch c code q h]
    exact ⟨hitems, htot⟩
  · rw [removeProduct_firstMatch c code q pre suf e hl hpre he]
    have hmem : e ∈ c.itemsList := by simp [hl]
    by_cases hq : q ≥ e.quantity
    · rw [if_pos hq]
      refine ⟨?_, ?_⟩
      · intro x hx
        simp only [List.mem_append] at hx
        rcases hx with hx | hx
        · exact hitems x (by simp [hl, hx])
        · exact hitems x (by simp [hl, hx])
      · simp [htot, hl]
        ring
    · rw [if_neg hq]
      have hwrap : wrapInt (e.quantity - q) = e.quantity - q :=
        wrapInt_of_isInt _ (hex e (by rw [hl]; exact firstLine_firstMatch _ e suf he pre hpre)
          (not_le.mp hq))
      refine ⟨?_, ?_⟩
      · intro x hx
        simp only [List.mem_append, List.mem_cons] at hx
        rcases hx with hx | rfl | hx
        · exact hitems x (by simp [hl, hx])
        · exact hitems e hmem
        · exact hitems x (by simp [hl, hx])
      · simp [htot, hl, hwrap]
        ring

theorem applyCalls_total (catalog : List Product)
    (hcat : ∀ p1 ∈ catalog, ∀ p2 ∈ catalog,
      p1.productCode = p2.productCode → p1.productPrice = p2.productPrice)
    (calls : List CartCall) (hcalls : ∀ p q, CartCall.add p q ∈ calls → p ∈ catalog) :
    ∀ c : ShoppingCart, callsExact c calls → (∀ e ∈ c.itemsList, e.item ∈ catalog) →
      c.totalCost = linesTotal c.itemsList →
      (∀ e ∈ (applyCalls c calls).itemsList, e.item ∈ catalog) ∧
        (applyCalls c calls).totalCost = linesTotal (applyCalls c calls).itemsList := by
  induction calls with
  | nil => intro c _ h1 h2; exact ⟨h1, h2⟩
  | cons call calls ih =>
    intro c hex h1 h2
    have hrest : ∀ p q, CartCall.add p q ∈ calls → p ∈ catalog :=
      fun p q h => hcalls p q (List.mem_cons_of_mem _ h)
    cases call with
    | add p q =>
      have hp : p ∈ catalog := hcalls p q (by simp)
      obtain ⟨h3, h4⟩ := addProduct_total catalog hcat c p q hp hex.1 h1 h2
      exact ih hrest (c.addProduct p q) hex.2 h3 h4
    | remove code q =>
      obtain ⟨h3, h4⟩ := removeProduct_total catalog c code q hex.1 h1 h2
      exact ih hrest (c.removeProduct code q) hex.2 h3 h4

/-- C1, as stated, fails: with the catalog of `main`, after `addProduct(BIG,
2147483647)` and `addProduct(BIG, 1)` on the empty cart the line has quantity
`-2147483648`, so the sum over the lines is `-86973087744` while `getTotal()` is
`86973087744`. -/
theorem running_total_overflow :
    (∀ p1 ∈ products, ∀ p2 ∈ products,
        p1.productCode = p2.productCode → p1.productPrice = p2.productPrice) ∧
      (∀ p q, CartCall.add p q ∈ [CartCall.add bigas 2147483647, CartCall.add bigas 1] →
        p ∈ products) ∧
      (applyCalls (ShoppingCart.init 1)
        [CartCall.add bigas 2147483647, CartCall.add bigas 1]).getTotal = 86973087744 ∧
      linesTotal (applyCalls (ShoppingCart.init 1)
        [CartCall.add bigas 2147483647, CartCall.add bigas 1]).itemsList = -86973087744 ∧
      (applyCalls (ShoppingCart.init 1)
        [CartCall.add bigas 2147483647, CartCall.add bigas 1]).getTotal ≠
        linesTotal (applyCalls (ShoppingCart.init 1)
          [CartCall.add bigas 2147483647, CartCall.add bigas 1]).itemsList := by
  have hcalls : ∀ p q, CartCall.add p q ∈
      [CartCall.add bigas 2147483647, CartCall.add bigas 1] → p ∈ products := by
    intro p q h
    simp only [List.mem_cons, List.mem_singleton, List.not_mem_nil, or_false,
      CartCall.add.injEq] at h
    rcases h with ⟨rfl, _⟩ | ⟨rfl, _⟩ <;> simp [products, bigas]
  have ht : (applyCalls (ShoppingCart.init 1)
      [CartCall.add bigas 2147483647, CartCall.add bigas 1]).getTotal = 86973087744 := by
    simp [applyCalls, CartCall.apply, addProduct, addProductLoop, ShoppingCart.init, getTotal,
      bigas]
    norm_num
  have hs : linesTotal (applyCalls (ShoppingCart.init 1)
      [CartCall.add bigas 2147483647, CartCall.add bigas 1]).itemsList = -86973087744 := by
    simp [applyCalls, CartCall.apply, addProduct, addProductLoop, ShoppingCart.init, wrapInt,
      bigas]
    norm_num
  refine ⟨products_code_determines_price, hcalls, ht, hs, ?_⟩
  rw [ht, hs]
  norm_num

/-- C1, amended: with exact prices, take a catalog in which the product code
determines the price and any finite sequence of `addProduct` and `removeProduct`
calls on a fresh empty cart whose added products all come from the catalog and in
which no quantity update leaves the `int` range.  After each call, that is after
every initial part `done` of the sequence, `getTotal()` equals the sum over
`itemsList` of `item.productPrice * quantity`. -/
theorem running_total_invariant (catalog : List Product)
    (hcat : ∀ p1 ∈ catalog, ∀ p2 ∈ catalog,
      p1.productCode = p2.productCode → p1.productPrice = p2.productPrice)
    (id : Int) (calls : List CartCall)
    (hcalls : ∀ p q, CartCall.add p q ∈ calls → p ∈ catalog)
    (hexact : callsExact (ShoppingCart.init id) calls)
    (done : List CartCall) (hdone : done <+: calls) :
    (applyCalls (ShoppingCart.init id) done).getTotal =
      linesTotal (applyCalls (ShoppingCart.init id) done).itemsList := by
  have hsub : ∀ p q, CartCall.add p q ∈ done → p ∈ catalog :=
    fun p q h => hcalls p q (hdone.subset h)
  have hex : callsExact (ShoppingCart.init id) done := by
    obtain ⟨rest, rfl⟩ := hdone
    exact callsExact_append_left done rest _ hexact
  exact (applyCalls_total catalog hcat done hsub (ShoppingCart.init id) hex
    (by simp [ShoppingCart.init]) (by simp [ShoppingCart.init])).2

/-- C1 on the catalog of `main` and a sequence of five calls that merges a line,
lowers it and erases another one, all within the `int` range. -/
theorem running_total_invariant_witness :
    (∀ p1 ∈ products, ∀ p2 ∈ products,
        p1.productCode = p2.productCode → p1.productPrice = p2.productPrice) ∧
      (∀ p q, CartCall.add p q ∈
          [CartCall.add bigas 2, CartCall.add sardinas 1, CartCall.add bigas 3,
            CartCall.remove "BIG" 2, CartCall.remove "SRD" 5] → p ∈ products) ∧
      callsExact (ShoppingCart.init 1)
          [CartCall.add bigas 2, CartCall.add sardinas 1, CartCall.add bigas 3,
            CartCall.remove "BIG" 2, CartCall.remove "SRD" 5] ∧
      (applyCalls (ShoppingCart.init 1)
          [CartCall.add bigas 2, CartCall.add sardinas 1, CartCall.add bigas 3,
            CartCall.remove "BIG" 2, CartCall.remove "SRD" 5]).getTotal =
        linesTotal (applyCalls (ShoppingCart.init 1)
          [CartCall.add bigas 2, CartCall.add sardinas 1, CartCall.add bigas 3,
            CartCall.remove "BIG" 2, CartCall.remove "SRD" 5]).itemsList := by
  have hcalls : ∀ p q, CartCall.add p q ∈
      [CartCall.add bigas 2, CartCall.add sardinas 1, CartCall.add bigas 3,
        CartCall.remove "BIG" 2, CartCall.remove "SRD" 5] → p ∈ products := by
    intro p q h
    simp only [List.mem_cons, List.mem_singleton, List.not_mem_nil, or_false,
      CartCall.add.injEq] at h
    rcases h with ⟨rfl, _⟩ | ⟨rfl, _⟩ | ⟨rfl, _⟩ | h | h
    · simp [products, bigas]
    · simp [products, sardinas]
    · simp [products, bigas]
    · cases h
    · cases h
  have hexact : callsExact (ShoppingCart.init 1)
      [CartCall.add bigas 2, CartCall.add sardinas 1, CartCall.add bigas 3,
        CartCall.remove "BIG" 2, CartCall.remove "SRD" 5] := by
    simp [callsExact, CartCall.exact, CartCall.apply, addProduct, addProductLoop, removeProduct,
      removeProductLoop, firstLine, ShoppingCart.init, bigas, sardinas, wrapInt, isInt]
  exact ⟨products_code_determines_price, hcalls, hexact,
    running_total_invariant products products_code_determines_price 1 _ hcalls hexact _
      List.prefix_rfl⟩

/-! ### One line per code -/

theorem addProduct_nodup (c : ShoppingCart) (p : Product) (q : Int)
    (h : (c.itemsList.map fun e => e.item.productCode).Nodup) :
    ((c.addProduct p q).itemsList.map fun e => e.item.productCode).Nodup := by
  rcases firstMatch_cases p.productCode c.itemsList with hn | ⟨pre, e, suf, hl, hpre, he⟩
  · rw [addProduct_noMatch c p q hn]
    simp only [List.map_append, List.map_cons, List.map_nil]
    refine List.Nodup.append h (by simp) ?_
    intro a ha hb
    simp only [List.mem_map] at ha
    simp only [List.mem_singleton] at hb
    obtain ⟨x, hx, rfl⟩ := ha
    exact hn x hx hb
  · rw [addProduct_firstMatch c p q pre suf e hl hpre he]
    simpa [hl] using h

theorem removeProduct_nodup (c : ShoppingCart) (code : String) (q : Int)
    (h : (c.itemsList.map fun e => e.item.productCode).Nodup) :
    ((c.removeProduct code q).itemsList.map fun e => e.item.productCode).Nodup := by
  rcases firstMatch_cases code c.itemsList with hn | ⟨pre, e, suf, hl, hpre, he⟩
  · rw [removeProduct_noMatch c code q hn]
    exact h
  · rw [removeProduct_firstMatch c code q pre suf e hl hpre he]
    by_cases hq : q ≥ e.quantity
    · rw [if_pos hq]
      rw [hl] at h
      refine List.Nodup.sublist ?_ h
      exact List.Sublist.map _ (List.Sublist.append_left (List.sublist_cons_self e suf) pre)
    · rw [if_neg hq]
      simpa [hl] using h

theorem applyCalls_nodup (calls : List CartCall) :
    ∀ c : ShoppingCart, (c.itemsList.map fun e => e.item.productCode).Nodup →
      ((applyCalls c calls).itemsList.map fun e => e.item.productCode).Nodup := by
  induction calls with
  | nil => intro c h; exact h
  | cons call calls ih =>
    intro c h
    cases call with
    | add p q => exact ih (c.addProduct p q) (addProduct_nodup c p q h)
    | remove code q => exact ih (c.removeProduct code q) (removeProduct_nodup c code q h)

/-- Codes without repetition put equal codes at equal positions. -/
theorem index_eq_of_nodup_codes (l : List OrderItem)
    (h : (l.map fun e => e.item.productCode).Nodup) (i j : Nat)
    (hi : i < l.length) (hj : j < l.length)
    (heq : (l.get ⟨i, hi⟩).item.productCode = (l.get ⟨j, hj⟩).item.productCode) : i = j := by
  have hinj := List.nodup_iff_injective_get.mp h
  have hi2 : i < (l.map fun e => e.item.productCode).length := by simpa using hi
  have hj2 : j < (l.map fun e => e.item.productCode).length := by simpa using hj
  have := @hinj ⟨i, hi2⟩ ⟨j, hj2⟩ (by simpa using heq)
  simpa using this

/-- C8: after any finite sequence of `addProduct` and `removeProduct` calls, with
any products, codes and quantities, on a fresh empty cart, two distinct positions
`i` and `j` of `itemsList` never hold lines with the same `productCode`. -/
theorem one_line_per_code (id : Int) (calls : List CartCall) (i j : Nat) (e1 e2 : OrderItem)
    (hi : (applyCalls (ShoppingCart.init id) calls).itemsList[i]? = some e1)
    (hj : (applyCalls (ShoppingCart.init id) calls).itemsList[j]? = some e2)
    (hij : i ≠ j) :
    e1.item.productCode ≠ e2.item.productCode := by
  obtain ⟨hi1, hi2⟩ := List.getElem?_eq_some.mp hi
  obtain ⟨hj1, hj2⟩ := List.getElem?_eq_some.mp hj
  intro heq
  refine hij (index_eq_of_nodup_codes _
    (applyCalls_nodup calls (ShoppingCart.init id) (by simp [ShoppingCart.init])) i j hi1 hj1 ?_)
  simpa [hi2, hj2] using heq

/-- C8 on a sequence that adds BIG, then SRD, then BIG again: the two lines at
positions 0 and 1 carry different codes. -/
theorem one_line_per_code_witness :
    (applyCalls (ShoppingCart.init 1)
        [CartCall.add bigas 2, CartCall.add sardinas 1, CartCall.add bigas 3]).itemsList[0]? =
        some ⟨bigas, 5⟩ ∧
      (applyCalls (ShoppingCart.init 1)
        [CartCall.add bigas 2, CartCall.add sardinas 1, CartCall.add bigas 3]).itemsList[1]? =
        some ⟨sardinas, 1⟩ ∧
      (⟨bigas, 5⟩ : OrderItem).item.productCode ≠ (⟨sardinas, 1⟩ : OrderItem).item.productCode := by
  have h0 : (applyCalls (ShoppingCart.init 1)
      [CartCall.add bigas 2, CartCall.add sardinas 1, CartCall.add bigas 3]).itemsList[0]? =
      some ⟨bigas, 5⟩ := by
    simp [applyCalls, CartCall.apply, addProduct, addProductLoop, ShoppingCart.init, bigas,
      sardinas, wrapInt]
  have h1 : (applyCalls (ShoppingCart.init 1)
      [CartCall.add bigas 2, CartCall.add sardinas 1, CartCall.add bigas 3]).itemsList[1]? =
      some ⟨sardinas, 1⟩ := by
    simp [applyCalls, CartCall.apply, addProduct, addProductLoop, ShoppingCart.init, bigas,
      sardinas, wrapInt]
  exact ⟨h0, h1, one_line_per_code 1 _ 0 1 _ _ h0 h1 (by decide)⟩

/-! ### Positive quantities -/

theorem addProduct_pos (c : ShoppingCart) (p : Product) (q : Int) (hq : 1 ≤ q)
    (hex : (CartCall.add p q).exact c)
    (h : ∀ e ∈ c.itemsList, 1 ≤ e.quantity) :
    ∀ e ∈ (c.addProduct p q).itemsList, 1 ≤ e.quantity := by
  rcases firstMatch_cases p.productCode c.itemsList with hn | ⟨pre, e, suf, hl, hpre, he⟩
  · rw [addProduct_noMatch c p q hn]
    intro x hx
    simp only [List.mem_append, List.mem_singleton] at hx
    rcases hx with hx | rfl
    · exact h x hx
    · exact hq
  · rw [addProduct_firstMatch c p q pre suf e hl hpre he]
    have hwrap : wrapInt (e.quantity + q) = e.quantity + q :=
      wrapInt_of_isInt _ (hex e (by rw [hl]; exact firstLine_firstMatch _ e suf he pre hpre))
    intro x hx
    simp only [List.mem_append, List.mem_cons] at hx
    rcases hx with hx | rfl | hx
    · exact h x (by simp [hl, hx])
    · have := h e (by simp [hl])
      show 1 ≤ wrapInt (e.quantity + q)
      rw [hwrap]
      omega
    · exact h x (by simp [hl, hx])

theorem removeProduct_pos (c : ShoppingCart) (code : String) (q : Int)
    (hex : (CartCall.remove code q).exact c)
    (h : ∀ e ∈ c.itemsList, 1 ≤ e.quantity) :
    ∀ e ∈ (c.removeProduct code q).itemsList, 1 ≤ e.quantity := by
  rcases firstMatch_cases code c.itemsList with hn | ⟨pre, e, suf, hl, hpre, he⟩
  · rw [removeProduct_noMatch c code q hn]
    exact h
  · rw [removeProduct_firstMatch c code q pre suf e hl hpre he]
    by_cases hq : q ≥ e.quantity
    · rw [if_pos hq]
      intro x hx
      simp only [List.mem_append] at hx
      rcases hx with hx | hx
      · exact h x (by simp [hl, hx])
      · exact h x (by simp [hl, hx])
    · rw [if_neg hq]
      have hwrap : wrapInt (e.quantity - q) = e.quantity - q :=
        wrapInt_of_isInt _ (hex e (by rw [hl]; exact firstLine_firstMatch _ e suf he pre hpre)
          (not_le.mp hq))
      intro x hx
      simp only [List.mem_append, List.mem_cons] at hx
      rcases hx with hx | rfl | hx
      · exact h x (by simp [hl, hx])
      · show 1 ≤ wrapInt (e.quantity - q)
        rw [hwrap]
        omega
      · exact h x (by simp [hl, hx])

theorem applyCalls_pos (calls : List CartCall) (hcalls : ∀ call ∈ calls, 1 ≤ call.qty) :
    ∀ c : ShoppingCart, callsExact c calls → (∀ e ∈ c.itemsList, 1 ≤ e.quantity) →
      ∀ e ∈ (applyCalls c calls).itemsList, 1 ≤ e.quantity := by
  induction calls with
  | nil => intro c _ h; exact h
  | cons call calls ih =>
    intro c hex h
    have hrest : ∀ call ∈ calls, 1 ≤ call.qty := fun x hx => hcalls x (List.mem_cons_of_mem _ hx)
    have hcall : 1 ≤ call.qty := hcalls call (by simp)
    cases call with
    | add p q => exact ih hrest (c.addProduct p q) hex.2 (addProduct_pos c p q hcall hex.1 h)
    | remove code q =>
      exact ih hrest (c.removeProduct code q) hex.2 (removeProduct_pos c code q hex.1 h)

/-- C9, as stated, fails: `addProduct(BIG, 2147483647)` followed by
`addProduct(BIG, 1)`, both with a quantity argument of at least 1, leaves on the
empty cart a line of quantity `-2147483648`. -/
theorem positive_quantity_overflow :
    (∀ call ∈ [CartCall.add bigas 2147483647, CartCall.add bigas 1], 1 ≤ call.qty) ∧
      (applyCalls (ShoppingCart.init 1)
        [CartCall.add bigas 2147483647, CartCall.add bigas 1]).itemsList =
        [⟨bigas, -2147483648⟩] ∧
      ¬ ∀ e ∈ (applyCalls (ShoppingCart.init 1)
        [CartCall.add bigas 2147483647, CartCall.add bigas 1]).itemsList, 1 ≤ e.quantity := by
  have hl : (applyCalls (ShoppingCart.init 1)
      [CartCall.add bigas 2147483647, CartCall.add bigas 1]).itemsList =
      [⟨bigas, -2147483648⟩] := by
    simp [applyCalls, CartCall.apply, addProduct, addProductLoop, ShoppingCart.init, wrapInt]
  refine ⟨?_, hl, ?_⟩
  · intro call h
    simp only [List.mem_cons, List.mem_singleton, List.not_mem_nil, or_false] at h
    rcases h with rfl | rfl <;> simp [CartCall.qty]
  · rw [hl]
    simp

/-- C9, amended: when every quantity argument of a finite sequence of `addProduct`
and `removeProduct` calls is at least 1 and no quantity update of the sequence
leaves the `int` range, every line of the cart obtained from a fresh empty cart has
quantity at least 1.  Moreover, on any cart, a removal that would bring the first
line with the code to zero or below erases that line: the lines are then exactly
the others. -/
theorem lines_have_positive_quantity (id : Int) (calls : List CartCall)
    (hcalls : ∀ call ∈ calls, 1 ≤ call.qty)
    (hexact : callsExact (ShoppingCart.init id) calls) :
    (∀ e ∈ (applyCalls (ShoppingCart.init id) calls).itemsList, 1 ≤ e.quantity) ∧
      ∀ (c : ShoppingCart) (code : String) (q : Int) (pre suf : List OrderItem) (e : OrderItem),
        c.itemsList = pre ++ e :: suf → (∀ x ∈ pre, x.item.productCode ≠ code) →
        e.item.productCode = code → e.quantity - q ≤ 0 →
        (c.removeProduct code q).itemsList = pre ++ suf := by
  refine ⟨applyCalls_pos calls hcalls (ShoppingCart.init id) hexact
    (by simp [ShoppingCart.init]), ?_⟩
  intro c code q pre suf e hl hpre he hle
  rw [removeProduct_firstMatch c code q pre suf e hl hpre he]
  have hq : q ≥ e.quantity := by omega
  rw [if_pos hq]

/-- C9 on a sequence whose last call removes the whole BIG line: that line is
erased and the remaining SRD line has quantity 1. -/
theorem lines_have_positive_quantity_witness :
    (∀ call ∈ [CartCall.add bigas 2, CartCall.add sardinas 1, CartCall.remove "BIG" 2],
        1 ≤ call.qty) ∧
      callsExact (ShoppingCart.init 1)
        [CartCall.add bigas 2, CartCall.add sardinas 1, CartCall.remove "BIG" 2] ∧
      ∀ e ∈ (applyCalls (ShoppingCart.init 1)
          [CartCall.add bigas 2, CartCall.add sardinas 1, CartCall.remove "BIG" 2]).itemsList,
        1 ≤ e.quantity := by
  have hcalls : ∀ call ∈
      [CartCall.add bigas 2, CartCall.add sardinas 1, CartCall.remove "BIG" 2],
      1 ≤ call.qty := by
    intro call h
    simp only [List.mem_cons, List.mem_singleton, List.not_mem_nil, or_false] at h
    rcases h with rfl | rfl | rfl <;> simp [CartCall.qty]
  have hexact : callsExact (ShoppingCart.init 1)
      [CartCall.add bigas 2, CartCall.add sardinas 1, CartCall.remove "BIG" 2] := by
    simp [callsExact, CartCall.exact, CartCall.apply, addProduct, addProductLoop, removeProduct,
      removeProductLoop, firstLine, ShoppingCart.init, bigas, sardinas]
  exact ⟨hcalls, hexact, (lines_have_positive_quantity 1 _ hcalls hexact).1⟩

/-! ### Adding and removing the same quantity -/

/-- C10, as stated, fails: the cart with the single line BIG of quantity
`2147483647` meets every condition of the claim, yet `addProduct(BIG, 1)` wraps the
quantity to `-2147483648` and `removeProduct("BIG", 1)` then erases the line, so the
cart is not restored. -/
theorem add_then_remove_overflow :
    ((⟨1, [⟨bigas, 2147483647⟩], 86973087703.5⟩ : ShoppingCart).itemsList.map
        fun e => e.item.productCode).Nodup ∧
      (∀ e ∈ (⟨1, [⟨bigas, 2147483647⟩], 86973087703.5⟩ : ShoppingCart).itemsList,
        1 ≤ e.quantity) ∧
      (∀ e ∈ (⟨1, [⟨bigas, 2147483647⟩], 86973087703.5⟩ : ShoppingCart).itemsList,
        e.item.productCode = bigas.productCode → e.item.productPrice = bigas.productPrice) ∧
      (1 : Int) ≤ 1 ∧
      (((⟨1, [⟨bigas, 2147483647⟩], 86973087703.5⟩ : ShoppingCart).addProduct
        bigas 1).removeProduct bigas.productCode 1).itemsList = [] ∧
      ((⟨1, [⟨bigas, 2147483647⟩], 86973087703.5⟩ : ShoppingCart).addProduct
        bigas 1).removeProduct bigas.productCode 1 ≠
        ⟨1, [⟨bigas, 2147483647⟩], 86973087703.5⟩ := by
  have hl : (((⟨1, [⟨bigas, 2147483647⟩], 86973087703.5⟩ : ShoppingCart).addProduct
      bigas 1).removeProduct bigas.productCode 1).itemsList = [] := by
    simp [addProduct, addProductLoop, removeProduct, removeProductLoop, wrapInt, bigas]
  refine ⟨by simp, by simp, by simp, by decide, hl, ?_⟩
  intro h
  rw [h] at hl
  simp at hl

/-- C10, amended: with exact prices, on a cart whose codes are pairwise distinct and
whose lines all have quantity at least 1, for a product `p` whose price agrees with
every existing line of the same code and a quantity `q ≥ 1` such that the quantity
of an existing line of that code plus `q` is in the `int` range, `addProduct p q`
followed by `removeProduct p.productCode q` gives back the cart: same lines,
quantities and order, same `totalCost`, same `cartID`. -/
theorem add_then_remove_restores (c : ShoppingCart) (p : Product) (q : Int)
    (hnodup : (c.itemsList.map fun e => e.item.productCode).Nodup)
    (hpos : ∀ e ∈ c.itemsList, 1 ≤ e.quantity)
    (hprice : ∀ e ∈ c.itemsList,
      e.item.productCode = p.productCode → e.item.productPrice = p.productPrice)
    (hq : 1 ≤ q)
    (hsum : ∀ e ∈ c.itemsList, e.item.productCode = p.productCode → isInt (e.quantity + q)) :
    (c.addProduct p q).removeProduct p.productCode q = c := by
  rcases firstMatch_cases p.productCode c.itemsList with hn | ⟨pre, e, suf, hl, hpre, he⟩
  · rw [addProduct_noMatch c p q hn]
    rw [removeProduct_firstMatch _ p.productCode q c.itemsList [] ⟨p, q⟩ rfl hn rfl]
    simp
  · rw [addProduct_firstMatch c p q pre suf e hl hpre he]
    have hmem : e ∈ c.itemsList := by simp [hl]
    have hk := hpos e hmem
    have hint := hsum e hmem he
    have hwrap : wrapInt (e.quantity + q) = e.quantity + q := wrapInt_of_isInt _ hint
    have hback : wrapInt (e.quantity + q - q) = e.quantity := by
      have : e.quantity + q - q = e.quantity := by omega
      rw [this]
      apply wrapInt_of_isInt
      unfold isInt at hint ⊢
      omega
    rw [hwrap]
    rw [removeProduct_firstMatch _ p.productCode q pre suf ⟨e.item, e.quantity + q⟩ rfl hpre he]
    have hnot : ¬ q ≥ e.quantity + q := by omega
    have hp := hprice e hmem he
    simp only [hnot, if_false, hback]
    cases c with
    | mk cid items t =>
      simp only at hl
      subst hl
      simp [hp]

/-- C10 on the cart with lines BIG (quantity 5) and SRD (quantity 1): adding 4 of
BIG and removing 4 of "BIG" gives the cart back. -/
theorem add_then_remove_restores_witness :
    ((⟨1, [⟨bigas, 5⟩, ⟨sardinas, 1⟩], 218.25⟩ : ShoppingCart).itemsList.map
        fun e => e.item.productCode).Nodup ∧
      (∀ e ∈ (⟨1, [⟨bigas, 5⟩, ⟨sardinas, 1⟩], 218.25⟩ : ShoppingCart).itemsList,
        1 ≤ e.quantity) ∧
      (∀ e ∈ (⟨1, [⟨bigas, 5⟩, ⟨sardinas, 1⟩], 218.25⟩ : ShoppingCart).itemsList,
        e.item.productCode = bigas.productCode → e.item.productPrice = bigas.productPrice) ∧
      (∀ e ∈ (⟨1, [⟨bigas, 5⟩, ⟨sardinas, 1⟩], 218.25⟩ : ShoppingCart).itemsList,
        e.item.productCode = bigas.productCode → isInt (e.quantity + 4)) ∧
      ((⟨1, [⟨bigas, 5⟩, ⟨sardinas, 1⟩], 218.25⟩ : ShoppingCart).addProduct bigas 4).removeProduct
          bigas.productCode 4 = ⟨1, [⟨bigas, 5⟩, ⟨sardinas, 1⟩], 218.25⟩ := by
  have h1 : ((⟨1, [⟨bigas, 5⟩, ⟨sardinas, 1⟩], 218.25⟩ : ShoppingCart).itemsList.map
      fun e => e.item.productCode).Nodup := by
    simp [bigas, sardinas]
  have h2 : ∀ e ∈ (⟨1, [⟨bigas, 5⟩, ⟨sardinas, 1⟩], 218.25⟩ : ShoppingCart).itemsList,
      1 ≤ e.quantity := by
    simp
  have h3 : ∀ e ∈ (⟨1, [⟨bigas, 5⟩, ⟨sardinas, 1⟩], 218.25⟩ : ShoppingCart).itemsList,
      e.item.productCode = bigas.productCode → e.item.productPrice = bigas.productPrice := by
    simp [bigas, sardinas]
  have h4 : ∀ e ∈ (⟨1, [⟨bigas, 5⟩, ⟨sardinas, 1⟩], 218.25⟩ : ShoppingCart).itemsList,
      e.item.productCode = bigas.productCode → isInt (e.quantity + 4) := by
    simp [bigas, sardinas, isInt]
  exact ⟨h1, h2, h3, h4, add_then_remove_restores _ bigas 4 h1 h2 h3 (by decide) h4⟩

/-! ## The menu loop -/

theorem addProduct_cartID (c : ShoppingCart) (p : Product) (q : Int) :
    (c.addProduct p q).cartID = c.cartID := rfl

theorem removeProduct_cartID (c : ShoppingCart) (code : String) (q : Int) :
    (c.removeProduct code q).cartID = c.cartID := by
  rcases firstMatch_cases code c.itemsList with hn | ⟨pre, e, suf, hl, hpre, he⟩
  · rw [removeProduct_noMatch c code q hn]
  · rw [removeProduct_firstMatch c code q pre suf e hl hpre he]
    split <;> rfl

theorem maxOrderNumber_concat (l : List Order) (o : Order) :
    maxOrderNumber (l ++ [o]) =
      match maxOrderNumber l with
      | none => some o.orderNumber
      | some m => some (max m o.orderNumber) := by
  induction l with
  | nil => rfl
  | cons a l ih =>
    have hcons : maxOrderNumber (a :: (l ++ [o])) =
        match maxOrderNumber (l ++ [o]) with
        | none => some a.orderNumber
        | some m => some (max a.orderNumber m) := rfl
    have hcons2 : maxOrderNumber (a :: l) =
        match maxOrderNumber l with
        | none => some a.orderNumber
        | some m => some (max a.orderNumber m) := rfl
    rw [List.cons_append, hcons, hcons2, ih]
    cases maxOrderNumber l with
    | none => simp [max_comm]
    | some m => simp [max_assoc, max_comm, max_left_comm]

/-- The value `maxOrderNumber` returns is an order number of the history and bounds
all of them. -/
theorem maxOrderNumber_spec (l : List Order) (m : Int) (h : maxOrderNumber l = some m) :
    (∃ o ∈ l, o.orderNumber = m) ∧ ∀ o ∈ l, o.orderNumber ≤ m := by
  induction l generalizing m with
  | nil => simp [maxOrderNumber] at h
  | cons a l ih =>
    simp only [maxOrderNumber] at h
    cases hl : maxOrderNumber l with
    | none =>
      rw [hl] at h
      simp only [Option.some.injEq] at h
      subst h
      have hnil : l = [] := by
        cases l with
        | nil => rfl
        | cons b l =>
          simp only [maxOrderNumber] at hl
          cases h2 : maxOrderNumber l <;> rw [h2] at hl <;> simp at hl
      subst hnil
      simp
    | some k =>
      rw [hl] at h
      simp only [Option.some.injEq] at h
      obtain ⟨⟨o, ho, hok⟩, hle⟩ := ih k hl
      subst h
      refine ⟨?_, ?_⟩
      · rcases le_total a.orderNumber k with hak | hak
        · exact ⟨o, List.mem_cons_of_mem _ ho, by rw [hok, max_eq_right hak]⟩
        · exact ⟨a, by simp, by rw [max_eq_left hak]⟩
      · intro x hx
        rcases List.mem_cons.mp hx with rfl | hx
        · exact le_max_left _ _
        · exact le_trans (hle x hx) (le_max_right _ _)

theorem sessionInv_initial : SessionInv Session.initial := by
  refine ⟨rfl, fun _ => rfl, ?_⟩
  intro m hm
  simp [Session.initial, maxOrderNumber] at hm

theorem sessionInv_menuStep (s : Session) (a : MenuAction) (h : SessionInv s) :
    SessionInv (menuStep s a) := by
  obtain ⟨h1, h2, h3⟩ := h
  cases a with
  | viewProducts => exact ⟨h1, h2, h3⟩
  | addToCart inputID qty =>
    simp only [menuStep]
    split
    · exact ⟨by simpa [addProduct_cartID] using h1, h2, h3⟩
    · exact ⟨h1, h2, h3⟩
  | removeFromCart removeID removeQty =>
    simp only [menuStep]
    split
    · exact ⟨h1, h2, h3⟩
    · exact ⟨by simpa [removeProduct_cartID] using h1, h2, h3⟩
  | viewCart => exact ⟨h1, h2, h3⟩
  | placeOrder =>
    simp only [menuStep]
    split
    · exact ⟨h1, h2, h3⟩
    · refine ⟨rfl, ?_, ?_⟩
      · intro hnil
        simp at hnil
      · intro m hm
        simp only [maxOrderNumber_concat] at hm
        cases hmax : maxOrderNumber s.ordersRecord with
        | none =>
          rw [hmax] at hm
          simp only [Option.some.injEq] at hm
          simp [hm]
        | some k =>
          rw [hmax] at hm
          simp only [Option.some.injEq] at hm
          have hk := h3 k hmax
          have : m = s.nextOrderIndex := by
            rw [← hm, hk]
            exact max_eq_right (by omega)
          simp [this]
  | orderHistory => exact ⟨h1, h2, h3⟩
  | exit => exact ⟨h1, h2, h3⟩

theorem sessionInv_runMenu (actions : List MenuAction) :
    ∀ s : Session, SessionInv s → SessionInv (runMenu s actions) := by
  induction actions with
  | nil => intro s h; exact h
  | cons a actions ih =>
    intro s h
    simp only [runMenu]
    split
    · exact ih _ (sessionInv_menuStep s a h)
    · exact h

theorem menuStep_history_grows (s : Session) (a : MenuAction) :
    s.ordersRecord <+: (menuStep s a).ordersRecord := by
  cases a with
  | viewProducts => exact List.prefix_rfl
  | addToCart inputID qty =>
    simp only [menuStep]
    split <;> exact List.prefix_rfl
  | removeFromCart removeID removeQty =>
    simp only [menuStep]
    split <;> exact List.prefix_rfl
  | viewCart => exact List.prefix_rfl
  | placeOrder =>
    simp only [menuStep]
    split
    · exact List.prefix_rfl
    · exact List.prefix_append _ _
  | orderHistory => exact List.prefix_rfl
  | exit => exact List.prefix_rfl

theorem runMenu_history_grows (actions : List MenuAction) :
    ∀ s : Session, s.ordersRecord <+: (runMenu s actions).ordersRecord := by
  induction actions with
  | nil => intro s; exact List.prefix_rfl
  | cons a actions ih =>
    intro s
    simp only [runMenu]
    split
    · exact (menuStep_history_grows s a).trans (ih _)
    · exact List.prefix_rfl

/-- C5: in every session reachable from the initial state (empty cart with id 1,
empty history, next order number 1) whose cart is non-empty, option 5 appends
exactly one `Order` at the end of `ordersRecord`.  Its `orderNumber` is 1 when the
history was empty and otherwise the largest `orderNumber` of the history plus 1;
its `orderCart` is the cart as it was before the step; afterwards the active cart
is empty with `totalCost` 0 and the same `cartID` 1. -/
theorem placeOrder_appends_next_order (s : Session) (hreach : s.Reachable)
    (hne : s.cart.isEmpty = false) :
    ∃ o : Order,
      (menuStep s MenuAction.placeOrder).ordersRecord = s.ordersRecord ++ [o] ∧
      (s.ordersRecord = [] → o.orderNumber = 1) ∧
      (∀ m, maxOrderNumber s.ordersRecord = some m → o.orderNumber = m + 1) ∧
      o.orderCart = s.cart ∧
      (menuStep s MenuAction.placeOrder).cart.isEmpty = true ∧
      (menuStep s MenuAction.placeOrder).cart.getTotal = 0 ∧
      (menuStep s MenuAction.placeOrder).cart.cartID = 1 ∧
      s.cart.cartID = 1 := by
  obtain ⟨actions, rfl⟩ := hreach
  obtain ⟨h1, h2, h3⟩ := sessionInv_runMenu actions Session.initial sessionInv_initial
  have hstep : menuStep (runMenu Session.initial actions) MenuAction.placeOrder =
      { runMenu Session.initial actions with
        ordersRecord := (runMenu Session.initial actions).ordersRecord ++
          [Order.mk (runMenu Session.initial actions).nextOrderIndex
            (runMenu Session.initial actions).cart]
        nextOrderIndex := (runMenu Session.initial actions).nextOrderIndex + 1
        cart := ShoppingCart.init 1 } := by
    simp [menuStep, hne]
  rw [hstep]
  exact ⟨⟨(runMenu Session.initial actions).nextOrderIndex,
    (runMenu Session.initial actions).cart⟩, rfl, h2, h3, rfl, rfl, rfl, rfl, h1⟩

/-- C5 after one completed order and a new addition: the history holds order 1, the
cart is non-empty, and placing the order appends an order numbered 2. -/
theorem placeOrder_appends_next_order_witness :
    (runMenu Session.initial
        [MenuAction.addToCart "BIG" 2, MenuAction.placeOrder,
          MenuAction.addToCart "SRD" 1]).Reachable ∧
      (runMenu Session.initial
        [MenuAction.addToCart "BIG" 2, MenuAction.placeOrder,
          MenuAction.addToCart "SRD" 1]).cart.isEmpty = false ∧
      maxOrderNumber (runMenu Session.initial
        [MenuAction.addToCart "BIG" 2, MenuAction.placeOrder,
          MenuAction.addToCart "SRD" 1]).ordersRecord = some 1 ∧
      ∃ o : Order,
        (menuStep (runMenu Session.initial
          [MenuAction.addToCart "BIG" 2, MenuAction.placeOrder,
            MenuAction.addToCart "SRD" 1]) MenuAction.placeOrder).ordersRecord =
          (runMenu Session.initial
            [MenuAction.addToCart "BIG" 2, MenuAction.placeOrder,
              MenuAction.addToCart "SRD" 1]).ordersRecord ++ [o] ∧
        o.orderNumber = 2 := by
  have hne : (runMenu Session.initial
      [MenuAction.addToCart "BIG" 2, MenuAction.placeOrder,
        MenuAction.addToCart "SRD" 1]).cart.isEmpty = false := by
    simp [runMenu, menuStep, Session.initial, findProduct, products, addProduct, addProductLoop,
      ShoppingCart.init, ShoppingCart.isEmpty]
  have hmax : maxOrderNumber (runMenu Session.initial
      [MenuAction.addToCart "BIG" 2, MenuAction.placeOrder,
        MenuAction.addToCart "SRD" 1]).ordersRecord = some 1 := by
    simp [runMenu, menuStep, Session.initial, findProduct, products, addProduct, addProductLoop,
      ShoppingCart.init, ShoppingCart.isEmpty, maxOrderNumber]
  obtain ⟨o, ho, _, hnum, _⟩ := placeOrder_appends_next_order _ ⟨_, rfl⟩ hne
  exact ⟨⟨_, rfl⟩, hne, hmax, o, ho, by rw [hnum 1 hmax]; rfl⟩

/-- C6: in every session whose cart is empty, option 5 is refused: the session is
returned as it is, so `ordersRecord`, `nextOrderIndex` and the cart are unchanged
and no `Order` is appended. -/
theorem placeOrder_refused_on_empty_cart (s : Session) (hempty : s.cart.isEmpty = true) :
    menuStep s MenuAction.placeOrder = s ∧
      (menuStep s MenuAction.placeOrder).ordersRecord = s.ordersRecord ∧
      (menuStep s MenuAction.placeOrder).nextOrderIndex = s.nextOrderIndex ∧
      (menuStep s MenuAction.placeOrder).cart = s.cart := by
  have h : menuStep s MenuAction.placeOrder = s := by simp [menuStep, hempty]
  rw [h]
  exact ⟨rfl, rfl, rfl, rfl⟩

/-- C6, the example of the specification: the cart obtained from the empty cart by
adding BIG twice (2, then 3) and removing "BIG" twice (2, then 10) is empty, and
placing an order on it is refused. -/
theorem placeOrder_refused_on_empty_cart_witness :
    ((((((ShoppingCart.init 1).addProduct bigas 2).addProduct bigas 3).removeProduct
        "BIG" 2).removeProduct "BIG" 10).isEmpty = true) ∧
      menuStep ⟨1, [], ((((ShoppingCart.init 1).addProduct bigas 2).addProduct bigas 3).removeProduct
        "BIG" 2).removeProduct "BIG" 10, true⟩ MenuAction.placeOrder =
        ⟨1, [], ((((ShoppingCart.init 1).addProduct bigas 2).addProduct bigas 3).removeProduct
          "BIG" 2).removeProduct "BIG" 10, true⟩ := by
  have hempty : (((((ShoppingCart.init 1).addProduct bigas 2).addProduct bigas 3).removeProduct
      "BIG" 2).removeProduct "BIG" 10).isEmpty = true := by
    simp [addProduct, addProductLoop, removeProduct, removeProductLoop, ShoppingCart.init,
      ShoppingCart.isEmpty, bigas, wrapInt]
  exact ⟨hempty, (placeOrder_refused_on_empty_cart ⟨1, [], _, true⟩ hempty).1⟩

/-- C7: the order history is append-only.  For every session and every single menu
action, with any product code and quantity inputs, `ordersRecord` before the step
is a prefix of `ordersRecord` after it; the same holds across any finite run of the
menu loop.  So an order in the history is never removed, reordered or modified
later, and the history lists the orders in the order they were placed. -/
theorem ordersRecord_append_only (s : Session) :
    (∀ a : MenuAction, s.ordersRecord <+: (menuStep s a).ordersRecord) ∧
      ∀ actions : List MenuAction, s.ordersRecord <+: (runMenu s actions).ordersRecord :=
  ⟨menuStep_history_grows s, fun actions => runMenu_history_grows actions s⟩

end ClassDiagram
